import Mathlib

/-!
# Verification of the F1-Visualizer multi-level cache subsystem

Shallow embedding of `src/f1_visualization/cache/manager.py` (class
`CacheManager`), `src/f1_visualization/cache/decorators.py`
(`cached_dataframe`) and the construction-time defaults from
`src/f1_visualization/schemas/settings.py` (`CacheSettings`).

Modelling conventions:
* A pandas `DataFrame` is modelled as `Df`, an opaque payload with a list of
  rows; only structural equality and pandas' `DataFrame.empty` test
  (`Df.isEmpty`) are ever consulted by the cache code.
* The memory tier (`self._memory_cache : dict`, `self._memory_access_order :
  list`) is an association list (keys unique by construction, insertion order
  preserved, exactly a Python `dict`) together with a list of keys.
* The disk tier (`self._cache_dir` on the filesystem) is an association list
  from cache key to `DiskFile`.  The on-disk filename of key `k` under the
  default `disk_format = "pickle"` is `k ++ ".pkl"` (`_get_disk_path`); files
  are keyed here by the raw key, which is equivalent because
  `k ↦ k ++ ".pkl"` is injective.  A `DiskFile` records the file's mtime (in
  seconds since the epoch, the resolution the TTL comparison uses) and its
  content.
* Wall-clock time is passed explicitly as `now : Int` (seconds) to the
  operations that consult it; `timedelta(hours=h)` is `3600 * h` seconds.
* File content is either a successfully pickled value (`stored v`), or bytes
  whose `pickle.load` raises an exception that IS in the tuple caught by
  `CacheManager.get` — `(OSError, pickle.PickleError,
  pd.errors.EmptyDataError)` — (`corruptCaught`, e.g. a
  `pickle.UnpicklingError` from bad opcode bytes), or bytes whose
  `pickle.load` raises an exception NOT in that tuple (`corruptUncaught`,
  e.g. the `EOFError` that `pickle.load` raises on an empty or truncated
  file).  An uncaught exception propagates out of `get`, modelled by the
  `Except.error` result.
* `set`'s disk write (`open(...,"wb"); pickle.dump`) is an environment
  input.  It can fail with `OSError` or `pickle.PickleError` — exactly the
  classes caught and logged by the source's handler — or with an exception
  outside that tuple (e.g. `TypeError` from `pickle.dump` on a DataFrame
  holding unpicklable objects, or pyarrow/`ValueError` errors under the
  parquet format), which propagates to the caller.  `CacheManager.setFull`
  models the full outcome space, `DiskWriteOutcome`, including whatever the
  interrupted write left at the key's path; `CacheManager.set` is its
  restriction to the outcomes that return normally with the file either
  freshly written or unchanged — the regime every other claim's scenario
  exercises.
* `invalidate_pattern` matches memory keys by Python substring containment
  (`pattern in k`) and disk entries by `cache_dir.glob(f"*{pattern}*")`,
  which for a metacharacter-free pattern is substring containment in the
  filename `k ++ ".pkl"`.
-/

set_option autoImplicit false

/-- A pandas DataFrame, reduced to the structure the cache observes:
an ordered list of rows (abstract payload) with `isEmpty` mirroring
`DataFrame.empty`. -/
structure Df where
  rows : List Int
deriving DecidableEq, Repr

/-- `DataFrame.empty`: true iff the frame has no rows. -/
def Df.isEmpty (d : Df) : Bool := d.rows.isEmpty

/-- Content of a disk-cache file under the default pickle format. -/
inductive DiskContent where
  /-- Bytes produced by a successful `pickle.dump(v)`; `pickle.load`
  round-trips them to a value structurally equal to `v`. -/
  | stored (v : Df)
  /-- Corrupt bytes whose `pickle.load` raises an exception in the tuple
  `(OSError, pickle.PickleError, pd.errors.EmptyDataError)` caught by
  `CacheManager.get` (e.g. `pickle.UnpicklingError`). -/
  | corruptCaught
  /-- Corrupt bytes whose `pickle.load` raises an exception outside that
  tuple (e.g. `EOFError: Ran out of input` on an empty/truncated file),
  which therefore propagates to `get`'s caller. -/
  | corruptUncaught
deriving DecidableEq, Repr

/-- One file of the disk tier: its `st_mtime` (seconds) and content. -/
structure DiskFile where
  mtime : Int
  content : DiskContent
deriving DecidableEq, Repr

/-- `d[key]` lookup in a Python dict modelled as an association list. -/
def lookupKey {β : Type} : List (String × β) → String → Option β
  | [], _ => none
  | (k, v) :: rest, key => if k = key then some v else lookupKey rest key

/-- `d.pop(key, None)`: remove the entry for `key` (dict keys are unique,
so removing the first matching pair is exact). -/
def eraseKey {β : Type} : List (String × β) → String → List (String × β)
  | [], _ => []
  | (k, v) :: rest, key => if k = key then rest else (k, v) :: eraseKey rest key

/-- `d[key] = v` on a Python dict: overwrite in place if present (keeping
insertion order), else append. -/
def dictInsert {β : Type} : List (String × β) → String → β → List (String × β)
  | [], key, v => [(key, v)]
  | (k, w) :: rest, key, v =>
      if k = key then (k, v) :: rest else (k, w) :: dictInsert rest key v

/-- Keys of a dict, in insertion order. -/
def keysOf {β : Type} (d : List (String × β)) : List String := d.map Prod.fst

/-- Substring search on character lists (`p` occurs inside `l`). -/
def subSearch (p : List Char) : List Char → Bool
  | [] => p.isEmpty
  | c :: rest => p.isPrefixOf (c :: rest) || subSearch p rest

/-- Python's `pat in s` substring containment test on strings. -/
def strContains (s pat : String) : Bool := subSearch pat.toList s.toList

/-- Python `x or default` for `x : int | None`: `None` and `0` are falsy and
select the default; any other integer is returned unchanged.  This is how
`CacheManager.__init__` combines its arguments with `cache_settings`. -/
def pyOrInt (x : Option Int) (dflt : Int) : Int :=
  match x with
  | some v => if v = 0 then dflt else v
  | none => dflt

/-- `CacheSettings.memory_size` default (settings.py). -/
def cacheSettingsMemorySize : Int := 256

/-- `CacheSettings.disk_ttl_hours` default (settings.py). -/
def cacheSettingsDiskTTLHours : Int := 24

/-- The state of a `CacheManager` instance: configuration plus the two
tiers.  `memory_size` and `disk_ttl` are `Int` because Python integers are
unbounded and signed; `disk_ttl` is in seconds
(`timedelta(hours=h) = 3600*h` seconds). -/
structure CacheManager where
  memory_size : Int
  disk_ttl : Int
  memory_cache : List (String × Df)
  memory_access_order : List String
  disk_files : List (String × DiskFile)
deriving DecidableEq, Repr

/-- `CacheManager.__init__(cache_dir, memory_size, disk_ttl_hours)` with a
fresh (empty) cache directory: `memory_size or cache_settings.memory_size`,
`timedelta(hours=disk_ttl_hours or cache_settings.disk_ttl_hours)`. -/
def initCacheManager (memorySizeArg diskTTLHoursArg : Option Int) : CacheManager :=
  { memory_size := pyOrInt memorySizeArg cacheSettingsMemorySize
    disk_ttl := 3600 * pyOrInt diskTTLHoursArg cacheSettingsDiskTTLHours
    memory_cache := []
    memory_access_order := []
    disk_files := [] }

/-- `CacheManager._is_disk_cache_valid(path)` for the file of `key` at time
`now`: the file exists and `now - mtime < disk_ttl`. -/
def CacheManager.is_disk_cache_valid (st : CacheManager) (key : String) (now : Int) : Bool :=
  match lookupKey st.disk_files key with
  | none => false
  | some f => now - f.mtime < st.disk_ttl

/-- The `while len(self._memory_cache) >= self._memory_size:
self._evict_lru()` loop at the top of `CacheManager._set_memory`.  Each
iteration of `_evict_lru` pops the first key of the access order and drops
it from the mapping.  When the access order is empty `_evict_lru` is a
no-op, so if the guard still holds then (Python diverges; that situation is
unreachable when the tier invariant holds and `memory_size ≥ 1`, and the
`([], guard-true)` branch below returns the state unchanged). -/
def evictLoop (msize : Int) : List (String × Df) → List String →
    List (String × Df) × List String
  | cache, [] => (cache, [])
  | cache, k :: rest =>
      if (cache.length : Int) < msize then (cache, k :: rest)
      else evictLoop msize (eraseKey cache k) rest

/-- `CacheManager._set_memory(key, data)`: evict while at capacity, store
`data` under `key`, move `key` to the most-recently-used end of the access
order. -/
def CacheManager.set_memory (st : CacheManager) (key : String) (data : Df) : CacheManager :=
  let p := evictLoop st.memory_size st.memory_cache st.memory_access_order
  { st with
    memory_cache := dictInsert p.1 key data
    memory_access_order := p.2.erase key ++ [key] }

/-- `CacheManager.get(key)` at time `now`.  Memory tier first (hit renews
recency); else the disk tier if the file exists and is fresh; a successful
disk read is promoted into memory via `_set_memory`; a read failure whose
exception is in the caught tuple unlinks the file and falls through to the
miss return; an uncaught exception propagates (`Except.error`), leaving the
state untouched.  Result: the Python return value (`some v` or `none` for
the `None` miss) paired with the post-call state. -/
def CacheManager.get (st : CacheManager) (key : String) (now : Int) :
    Except Unit (Option Df) × CacheManager :=
  match lookupKey st.memory_cache key with
  | some v =>
      (Except.ok (some v),
       { st with memory_access_order := st.memory_access_order.erase key ++ [key] })
  | none =>
      match lookupKey st.disk_files key with
      | some f =>
          if now - f.mtime < st.disk_ttl then
            match f.content with
            | DiskContent.stored v => (Except.ok (some v), st.set_memory key v)
            | DiskContent.corruptCaught =>
                (Except.ok none, { st with disk_files := eraseKey st.disk_files key })
            | DiskContent.corruptUncaught => (Except.error (), st)
          else (Except.ok none, st)
      | none => (Except.ok none, st)

/-- `CacheManager.set(key, data, disk)` at time `now`, restricted to the
write outcomes that do not propagate an exception and leave no partial
file: always `_set_memory`; if `disk`, serialize to the key's file (fresh
mtime `now`) unless the write raises (`disk_write_fails`), where `true`
stands for a failure raising `OSError` or `pickle.PickleError` — the
classes the source's `except` handler catches and logs — that left the
key's file unchanged (e.g. `open` itself failing).  The complete model of
the write path, covering leftover partial files and the exception classes
the handler does NOT catch (which escape `set`), is
`CacheManager.setFull` below; `setFull_writeOk` ties the two together. -/
def CacheManager.set (st : CacheManager) (key : String) (data : Df)
    (disk : Bool) (disk_write_fails : Bool) (now : Int) : CacheManager :=
  let st1 := st.set_memory key data
  if disk then
    if disk_write_fails then st1
    else { st1 with
           disk_files := dictInsert st1.disk_files key ⟨now, DiskContent.stored data⟩ }
  else st1

/-- Outcome of the disk write `open(path, "wb"); pickle.dump(data, f)` in
`CacheManager.set`: an environment input.  On a failure, `left` records
whatever the interrupted write left at the key's path — `open("wb")`
truncates before `dump` runs, so this may be a fresh-mtime corrupt file, a
still-empty file, or (when `open` itself failed) the previous file or no
file at all; `none` means no file is present afterwards. -/
inductive DiskWriteOutcome where
  /-- The write completed: the key's file holds the pickled data, mtime
  fresh. -/
  | writeOk
  /-- The write raised `OSError` or `pickle.PickleError` — the classes the
  source's `except` handler at `CacheManager.set` catches and logs. -/
  | writeFailCaught (left : Option DiskFile)
  /-- The write raised an exception outside that tuple — e.g. `TypeError`
  from `pickle.dump` on a DataFrame holding unpicklable objects, or
  pyarrow/`ValueError` errors under the parquet format — which therefore
  propagates out of `set` to the caller. -/
  | writeFailUncaught (left : Option DiskFile)
deriving DecidableEq, Repr

/-- Full model of `CacheManager.set(key, data, disk)` at time `now` under
an arbitrary disk-write outcome.  First component: `Except.ok ()` when the
call returns normally, `Except.error ()` when the write's exception
propagates to the caller.  Second component: the manager's state
afterwards — the memory write precedes the disk write in the source, so it
is present in either case, and a failed write leaves at the key's path
whatever the outcome's `left` says. -/
def CacheManager.setFull (st : CacheManager) (key : String) (data : Df)
    (disk : Bool) (outcome : DiskWriteOutcome) (now : Int) :
    Except Unit Unit × CacheManager :=
  let st1 := st.set_memory key data
  if disk then
    match outcome with
    | DiskWriteOutcome.writeOk =>
        (Except.ok (), { st1 with
          disk_files := dictInsert st1.disk_files key ⟨now, DiskContent.stored data⟩ })
    | DiskWriteOutcome.writeFailCaught left =>
        (Except.ok (), { st1 with disk_files :=
          match left with
          | none => eraseKey st1.disk_files key
          | some f => dictInsert st1.disk_files key f })
    | DiskWriteOutcome.writeFailUncaught left =>
        (Except.error (), { st1 with disk_files :=
          match left with
          | none => eraseKey st1.disk_files key
          | some f => dictInsert st1.disk_files key f })
  else (Except.ok (), st1)

/-- `CacheManager.invalidate(key)`: drop from the mapping and the access
order, unlink the disk file (`missing_ok=True`). -/
def CacheManager.invalidate (st : CacheManager) (key : String) : CacheManager :=
  { st with
    memory_cache := eraseKey st.memory_cache key
    memory_access_order := st.memory_access_order.erase key
    disk_files := eraseKey st.disk_files key }

/-- `CacheManager.invalidate_pattern(pattern)`: pop every memory key
containing `pattern` (counting one per key), then unlink every file matched
by `cache_dir.glob(f"*{pattern}*")` (counting one per file; for a
metacharacter-free pattern the glob matches exactly the filenames
`k ++ ".pkl"` containing `pattern`).  Returns the combined count and the
new state. -/
def CacheManager.invalidate_pattern (st : CacheManager) (pat : String) :
    Nat × CacheManager :=
  let keysToRemove := keysOf (st.memory_cache.filter (fun kv => strContains kv.1 pat))
  let cache := keysToRemove.foldl (fun c k => eraseKey c k) st.memory_cache
  let order := keysToRemove.foldl (fun o k => o.erase k) st.memory_access_order
  let diskMatched := st.disk_files.filter (fun kv => strContains (kv.1 ++ ".pkl") pat)
  let diskKept := st.disk_files.filter (fun kv => !(strContains (kv.1 ++ ".pkl") pat))
  (keysToRemove.length + diskMatched.length,
   { st with memory_cache := cache, memory_access_order := order, disk_files := diskKept })

/-- `CacheManager.clear()`: empty the mapping and the access order, unlink
every `*.pkl` and every `*.parquet` file.  All files of this model carry
the `.pkl` extension, so the two globs cover every file. -/
def CacheManager.clear (st : CacheManager) : CacheManager :=
  { st with
    memory_cache := []
    memory_access_order := []
    disk_files := st.disk_files.filter (fun kv =>
      !((kv.1 ++ ".pkl").endsWith ".pkl") && !((kv.1 ++ ".pkl").endsWith ".parquet")) }

/-- Emptying the memory tier by hand (`_memory_cache.clear();
_memory_access_order.clear()`), as the test suite does to force a disk
read. -/
def CacheManager.clearMemoryTier (st : CacheManager) : CacheManager :=
  { st with memory_cache := [], memory_access_order := [] }

/-- The `wrapper` produced by `cached_dataframe(key_prefix, disk)` around a
pure function `f`, applied to one argument value `a` at time `now` in cache
state `st`.  `genKey` stands for `cache_manager._generate_key(key_prefix,
func.__name__, *args, **kwargs)`: the md5 digest of the stringified
arguments, modelled abstractly as a function of the call arguments (its
only properties the source relies on are determinism, which is definitional
for a Lean function, and key distinctness for distinct arguments, which is
a hypothesis where needed).  Returns the call's value, the post-call cache
state, and whether the wrapped function was invoked; `Except.error`
propagates an exception escaping `cache_manager.get`. -/
def cachedDataframeCall {α : Type} (genKey : α → String) (f : α → Df)
    (disk : Bool) (a : α) (now : Int) (st : CacheManager) :
    Except Unit (Df × CacheManager × Bool) :=
  let key := genKey a
  match st.get key now with
  | (Except.ok (some v), st1) => Except.ok (v, st1, false)
  | (Except.ok none, st1) =>
      let result := f a
      if !result.isEmpty then
        Except.ok (result, st1.set key result disk false now, true)
      else Except.ok (result, st1, true)
  | (Except.error e, _) => Except.error e

/-! ## Association-list lemmas -/

theorem lookupKey_nil {β : Type} (k : String) :
    lookupKey ([] : List (String × β)) k = none := rfl

theorem lookupKey_dictInsert_self {β : Type} (c : List (String × β)) (k : String) (v : β) :
    lookupKey (dictInsert c k v) k = some v := by
  induction c with
  | nil => simp [dictInsert, lookupKey]
  | cons hd tl ih =>
      obtain ⟨a, w⟩ := hd
      by_cases h : a = k
      · simp [dictInsert, lookupKey, h]
      · simp [dictInsert, lookupKey, h, ih]

theorem lookupKey_dictInsert_ne {β : Type} (c : List (String × β)) (k k' : String) (v : β)
    (h : k' ≠ k) : lookupKey (dictInsert c k v) k' = lookupKey c k' := by
  have hkk : ¬ k = k' := fun hh => h hh.symm
  induction c with
  | nil => simp [dictInsert, lookupKey, hkk]
  | cons hd tl ih =>
      obtain ⟨a, w⟩ := hd
      by_cases ha : a = k
      · subst ha
        simp [dictInsert, lookupKey, hkk]
      · simp only [dictInsert, if_neg ha, lookupKey]
        by_cases ha' : a = k'
        · simp [ha']
        · simp [ha', ih]

theorem lookupKey_eq_none_iff {β : Type} (c : List (String × β)) (k : String) :
    lookupKey c k = none ↔ k ∉ keysOf c := by
  induction c with
  | nil => simp [lookupKey, keysOf]
  | cons hd tl ih =>
      obtain ⟨a, w⟩ := hd
      by_cases h : a = k
      · subst h
        simp [lookupKey, keysOf]
      · have hka : ¬ k = a := fun hh => h hh.symm
        simp [lookupKey, keysOf, h, hka] at ih ⊢
        exact ih

theorem lookupKey_isSome_iff {β : Type} (c : List (String × β)) (k : String) :
    (lookupKey c k).isSome = true ↔ k ∈ keysOf c := by
  induction c with
  | nil => simp [lookupKey, keysOf]
  | cons hd tl ih =>
      obtain ⟨a, w⟩ := hd
      by_cases h : a = k
      · subst h
        simp [lookupKey, keysOf]
      · have hka : ¬ k = a := fun hh => h hh.symm
        simp [lookupKey, keysOf, h, hka] at ih ⊢
        exact ih

theorem keysOf_nil {β : Type} : keysOf ([] : List (String × β)) = [] := rfl

theorem keysOf_cons {β : Type} (a : String) (w : β) (tl : List (String × β)) :
    keysOf ((a, w) :: tl) = a :: keysOf tl := rfl

theorem keysOf_eraseKey {β : Type} (c : List (String × β)) (k : String) :
    keysOf (eraseKey c k) = (keysOf c).erase k := by
  induction c with
  | nil => rfl
  | cons hd tl ih =>
      obtain ⟨a, w⟩ := hd
      by_cases h : a = k
      · subst h
        simp [eraseKey, keysOf_cons, List.erase_cons]
      · simp [eraseKey, keysOf_cons, List.erase_cons, h, ih]

theorem eraseKey_length_le {β : Type} (c : List (String × β)) (k : String) :
    (eraseKey c k).length ≤ c.length := by
  induction c with
  | nil => simp [eraseKey]
  | cons hd tl ih =>
      obtain ⟨a, w⟩ := hd
      by_cases h : a = k
      · subst h
        simp only [eraseKey, if_pos rfl, List.length_cons]
        exact Nat.le_succ _
      · simp only [eraseKey, if_neg h, List.length_cons]
        omega

theorem lookupKey_eraseKey_ne {β : Type} (c : List (String × β)) (k k' : String)
    (h : k' ≠ k) : lookupKey (eraseKey c k) k' = lookupKey c k' := by
  induction c with
  | nil => rfl
  | cons hd tl ih =>
      obtain ⟨a, w⟩ := hd
      by_cases ha : a = k
      · subst ha
        have hak : ¬ a = k' := fun hh => h hh.symm
        simp [eraseKey, lookupKey, hak]
      · simp only [eraseKey, if_neg ha, lookupKey]
        by_cases ha' : a = k'
        · simp [ha']
        · simp [ha', ih]

theorem eraseKey_of_not_mem {β : Type} (c : List (String × β)) (k : String)
    (h : k ∉ keysOf c) : eraseKey c k = c := by
  induction c with
  | nil => rfl
  | cons hd tl ih =>
      obtain ⟨a, w⟩ := hd
      simp only [keysOf_cons, List.mem_cons, not_or] at h
      have hak : ¬ a = k := fun hh => h.1 hh.symm
      simp [eraseKey, hak, ih h.2]

theorem dictInsert_of_not_mem {β : Type} (c : List (String × β)) (k : String) (v : β)
    (h : k ∉ keysOf c) : dictInsert c k v = c ++ [(k, v)] := by
  induction c with
  | nil => rfl
  | cons hd tl ih =>
      obtain ⟨a, w⟩ := hd
      simp only [keysOf_cons, List.mem_cons, not_or] at h
      have hak : ¬ a = k := fun hh => h.1 hh.symm
      simp [dictInsert, hak, ih h.2]

theorem keysOf_dictInsert {β : Type} (c : List (String × β)) (k : String) (v : β) :
    keysOf (dictInsert c k v) = if k ∈ keysOf c then keysOf c else keysOf c ++ [k] := by
  induction c with
  | nil => simp [dictInsert, keysOf]
  | cons hd tl ih =>
      obtain ⟨a, w⟩ := hd
      by_cases h : a = k
      · subst h
        simp [dictInsert, keysOf_cons]
      · have hka : ¬ k = a := fun hh => h hh.symm
        by_cases hm : k ∈ keysOf tl
        · simp [dictInsert, keysOf_cons, h, hm, hka, ih]
        · simp [dictInsert, keysOf_cons, h, hm, hka, ih]

theorem length_dictInsert {β : Type} (c : List (String × β)) (k : String) (v : β) :
    (dictInsert c k v).length = if k ∈ keysOf c then c.length else c.length + 1 := by
  induction c with
  | nil => simp [dictInsert, keysOf]
  | cons hd tl ih =>
      obtain ⟨a, w⟩ := hd
      by_cases h : a = k
      · subst h
        simp [dictInsert, keysOf_cons]
      · have hka : ¬ k = a := fun hh => h hh.symm
        by_cases hm : k ∈ keysOf tl
        · simp [dictInsert, keysOf_cons, h, hm, hka, ih]
        · simp [dictInsert, keysOf_cons, h, hm, hka, ih]

theorem nodup_append_singleton {l : List String} {a : String}
    (h1 : l.Nodup) (h2 : a ∉ l) : (l ++ [a]).Nodup := by
  rw [List.nodup_append]
  refine ⟨h1, List.nodup_singleton a, ?_⟩
  intro x hx hx'
  simp only [List.mem_singleton] at hx'
  exact h2 (hx' ▸ hx)

theorem evictLoop_of_lt (m : Int) (c : List (String × Df)) (o : List String)
    (h : (c.length : Int) < m) : evictLoop m c o = (c, o) := by
  cases o <;> simp [evictLoop, h]

/-! ## Claim theorems -/

/-- C10: constructing `CacheManager` with an explicit zero (falsy)
`memory_size` or `disk_ttl_hours` silently falls back to the process-wide
defaults: capacity 256 and a 24-hour TTL, not a zero capacity or zero
TTL. -/
theorem c10_falsy_config_falls_back_to_defaults :
    (initCacheManager (some 0) none).memory_size = 256 ∧
    (initCacheManager none (some 0)).disk_ttl = 24 * 3600 := by
  constructor <;> rfl

/-- On a successful write the full model agrees with the restricted `set`:
it returns normally and produces exactly `set`'s state. -/
theorem setFull_writeOk (st : CacheManager) (k : String) (v : Df) (d : Bool)
    (now : Int) :
    st.setFull k v d DiskWriteOutcome.writeOk now
      = (Except.ok (), st.set k v d false now) := by
  cases d <;> rfl

/-- C7 counterexample: a disk write failing with an exception OUTSIDE the
caught tuple `(OSError, pickle.PickleError)` — e.g. `TypeError` from
`pickle.dump` on a DataFrame holding unpicklable objects, or a
pyarrow/`ValueError` error under the parquet format — propagates out of
`set` to the caller, refuting "never raises … for any I/O or serialization
reason"; the memory write has still happened when it does. -/
theorem c7_counterexample :
    (((initCacheManager none none).setFull "k" ⟨[1]⟩ true
        (DiskWriteOutcome.writeFailUncaught none) 0).1 = Except.error ()) ∧
    lookupKey (((initCacheManager none none).setFull "k" ⟨[1]⟩ true
        (DiskWriteOutcome.writeFailUncaught none) 0).2).memory_cache "k"
      = some ⟨[1]⟩ := by
  constructor <;> rfl

/-- C7 amended: `set(k, v, disk=True)` never raises when the disk write
fails with `OSError` or `pickle.PickleError` — exactly the classes the
source's handler catches — whatever the interrupted write left at the
key's path; the failure is absorbed (logged) and the memory write is not
rolled back, so an immediately following `get(k)` returns `v` from the
memory tier.  A write failure raising any other exception class propagates
to the caller, though even then the memory write has already happened. -/
theorem c7_caught_write_failure_is_soft (st : CacheManager) (k : String) (v : Df)
    (now now2 : Int) (left : Option DiskFile) :
    ((st.setFull k v true (DiskWriteOutcome.writeFailCaught left) now).1
        = Except.ok () ∧
      (((st.setFull k v true (DiskWriteOutcome.writeFailCaught left) now).2).get
          k now2).1 = Except.ok (some v)) ∧
    ((st.setFull k v true (DiskWriteOutcome.writeFailUncaught left) now).1
        = Except.error () ∧
      lookupKey ((st.setFull k v true
          (DiskWriteOutcome.writeFailUncaught left) now).2).memory_cache k
        = some v) := by
  refine ⟨⟨rfl, ?_⟩, rfl, ?_⟩
  · simp [CacheManager.setFull, CacheManager.set_memory, CacheManager.get,
      lookupKey_dictInsert_self]
  · simp [CacheManager.setFull, CacheManager.set_memory,
      lookupKey_dictInsert_self]

/-- C5: read-after-write with `disk=True`: `get(k)` right after
`set(k, v, disk=True)` returns `v` (memory hit); after the memory tier is
emptied, `get(k)` is served by deserializing the disk file, returns `v`,
and promotes `v` back into the memory tier.  Requires a positive TTL (any
constructed manager has one: hours default to 24 and `0` is replaced). -/
theorem c5_read_after_write (st : CacheManager) (k : String) (v : Df) (now : Int)
    (httl : 0 < st.disk_ttl) :
    ((st.set k v true false now).get k now).1 = Except.ok (some v) ∧
    (((st.set k v true false now).clearMemoryTier).get k now).1 = Except.ok (some v) ∧
    lookupKey ((((st.set k v true false now).clearMemoryTier).get k now).2).memory_cache k
      = some v := by
  refine ⟨?_, ?_, ?_⟩
  · simp [CacheManager.set, CacheManager.set_memory, CacheManager.get,
      lookupKey_dictInsert_self]
  · simp [CacheManager.set, CacheManager.set_memory, CacheManager.clearMemoryTier,
      CacheManager.get, lookupKey, lookupKey_dictInsert_self, httl]
  · simp [CacheManager.set, CacheManager.set_memory, CacheManager.clearMemoryTier,
      CacheManager.get, lookupKey, lookupKey_dictInsert_self, httl, evictLoop]

/-- Witness for C5 at a concrete manager, key, value and time. -/
theorem c5_read_after_write_witness :
    0 < (initCacheManager none none).disk_ttl ∧
    (((initCacheManager none none).set "k" ⟨[1]⟩ true false 0).get "k" 0).1
      = Except.ok (some ⟨[1]⟩) := by
  refine ⟨by decide, ?_⟩
  exact (c5_read_after_write (initCacheManager none none) "k" ⟨[1]⟩ 0 (by decide)).1

/-- C9 counterexample: with `memory_size = 2` and both "a" and "b" cached
("b" already present), `set("b", v)` evicts "a" — the source's
`_set_memory` runs its eviction loop whenever the tier is at capacity,
even when the key being set is already present, so overwriting is NOT
eviction-free as the claim states. -/
theorem c9_counterexample :
    (lookupKey (((initCacheManager (some 2) none).set "a" ⟨[1]⟩ false false 0).set
        "b" ⟨[2]⟩ false false 0).memory_cache "b").isSome = true ∧
    lookupKey ((((initCacheManager (some 2) none).set "a" ⟨[1]⟩ false false 0).set
        "b" ⟨[2]⟩ false false 0).set "b" ⟨[3]⟩ false false 0).memory_cache "a"
      = none := by
  constructor <;> rfl

/-- C9 amended: setting a key `k` already present in the memory tier
overwrites its value and leaves every other memory entry in place,
PROVIDED the tier is strictly below capacity; at capacity the source
evicts the least-recently-used key first even though no new key is being
inserted (see the counterexample). -/
theorem c9_overwrite_below_capacity_preserves_others (st : CacheManager) (k : String)
    (v : Df) (d wf : Bool) (now : Int)
    (_hpresent : (lookupKey st.memory_cache k).isSome = true)
    (hcap : (st.memory_cache.length : Int) < st.memory_size) :
    lookupKey (st.set k v d wf now).memory_cache k = some v ∧
    ∀ k', k' ≠ k →
      lookupKey (st.set k v d wf now).memory_cache k' = lookupKey st.memory_cache k' := by
  have hloop := evictLoop_of_lt st.memory_size st.memory_cache st.memory_access_order hcap
  constructor
  · cases d <;> cases wf <;>
      simp [CacheManager.set, CacheManager.set_memory, hloop, lookupKey_dictInsert_self]
  · intro k' hk'
    cases d <;> cases wf <;>
      simp [CacheManager.set, CacheManager.set_memory, hloop,
        lookupKey_dictInsert_ne _ _ _ _ hk']

/-- Witness for C9's amended theorem: a manager of capacity 3 holding "a"
and "b"; overwriting "b" keeps "a". -/
theorem c9_overwrite_below_capacity_witness :
    (lookupKey (((initCacheManager (some 3) none).set "a" ⟨[1]⟩ false false 0).set
        "b" ⟨[2]⟩ false false 0).memory_cache "b").isSome = true ∧
    lookupKey ((((initCacheManager (some 3) none).set "a" ⟨[1]⟩ false false 0).set
        "b" ⟨[2]⟩ false false 0).set "b" ⟨[3]⟩ false false 0).memory_cache "a"
      = some ⟨[1]⟩ := by
  refine ⟨by decide, ?_⟩
  have := (c9_overwrite_below_capacity_preserves_others
    (((initCacheManager (some 3) none).set "a" ⟨[1]⟩ false false 0).set
      "b" ⟨[2]⟩ false false 0) "b" ⟨[3]⟩ false false 0 (by decide) (by decide)).2
    "a" (by decide)
  rw [this]
  rfl

/-- C2 counterexample: a disk entry written at time 0 with the default
24-hour TTL, memory tier emptied, read at time 86400 (age = TTL, so
stale): `get` returns Absent as claimed, but the stale file is NOT
removed — the source skips the whole read block when
`_is_disk_cache_valid` is false and never unlinks on staleness. -/
theorem c2_counterexample :
    ((((initCacheManager none none).set "k" ⟨[1]⟩ true false 0).clearMemoryTier).get
        "k" 86400).1 = Except.ok none ∧
    lookupKey (((((initCacheManager none none).set "k" ⟨[1]⟩ true false
        0).clearMemoryTier).get "k" 86400).2).disk_files "k"
      = some ⟨0, DiskContent.stored ⟨[1]⟩⟩ := by
  constructor <;> rfl

/-- C2 amended: for every key absent from the memory tier whose disk file
exists but is stale (age ≥ TTL), `get` returns Absent — but as the
counterexample shows, the stale file is NOT removed as a side effect: the
whole state is returned unchanged (the file lingers until `clear`,
`invalidate`, or an overwrite). -/
theorem c2_stale_disk_entry_absent_file_kept (st : CacheManager) (k : String)
    (now : Int) (f : DiskFile)
    (hmem : lookupKey st.memory_cache k = none)
    (hfile : lookupKey st.disk_files k = some f)
    (hstale : st.disk_ttl ≤ now - f.mtime) :
    st.get k now = (Except.ok none, st) := by
  simp [CacheManager.get, hmem, hfile, not_lt.mpr hstale]

/-- Witness for C2's amended theorem at the counterexample's concrete
state. -/
theorem c2_stale_disk_entry_witness :
    lookupKey ((((initCacheManager none none).set "k" ⟨[1]⟩ true false
        0).clearMemoryTier)).memory_cache "k" = none ∧
    ((((initCacheManager none none).set "k" ⟨[1]⟩ true false 0).clearMemoryTier).get
        "k" 86400).1 = Except.ok none := by
  refine ⟨rfl, ?_⟩
  rw [c2_stale_disk_entry_absent_file_kept
    (((initCacheManager none none).set "k" ⟨[1]⟩ true false 0).clearMemoryTier)
    "k" 86400 ⟨0, DiskContent.stored ⟨[1]⟩⟩ rfl rfl (by decide)]

/-- C6 counterexample: a fresh disk file holding garbage whose
deserialization raises an exception outside the caught tuple (as
`pickle.load` does on an empty/truncated file: `EOFError`): `get` raises
to the caller instead of returning Absent, and the corrupt file still
exists afterwards — so the claim's "any content whose deserialization
fails" is too strong. -/
theorem c6_counterexample :
    (({ initCacheManager none none with
        disk_files := [("k", ⟨0, DiskContent.corruptUncaught⟩)] } : CacheManager).get
        "k" 0).1 = Except.error () ∧
    lookupKey ((({ initCacheManager none none with
        disk_files := [("k", ⟨0, DiskContent.corruptUncaught⟩)] } : CacheManager).get
        "k" 0).2).disk_files "k" = some ⟨0, DiskContent.corruptUncaught⟩ := by
  constructor <;> rfl

/-- C6 amended: for every key absent from the memory tier whose fresh disk
file holds garbage whose deserialization raises one of the CAUGHT
exception classes (`OSError`, `pickle.PickleError`,
`pd.errors.EmptyDataError`), `get` returns Absent without raising, and
the corrupt file is removed; garbage raising any other class (e.g.
`EOFError` from a truncated pickle) propagates and leaves the file (see
the counterexample). -/
theorem c6_caught_corruption_is_miss_and_unlinked (st : CacheManager) (k : String)
    (now : Int) (f : DiskFile)
    (hmem : lookupKey st.memory_cache k = none)
    (hfile : lookupKey st.disk_files k = some f)
    (hfresh : now - f.mtime < st.disk_ttl)
    (hcorrupt : f.content = DiskContent.corruptCaught) :
    st.get k now = (Except.ok none, { st with disk_files := eraseKey st.disk_files k }) := by
  simp [CacheManager.get, hmem, hfile, hfresh, hcorrupt]

/-- Witness for C6's amended theorem: a caught-class garbage file is
reported absent and unlinked. -/
theorem c6_caught_corruption_witness :
    (({ initCacheManager none none with
        disk_files := [("k", ⟨0, DiskContent.corruptCaught⟩)] } : CacheManager).get
        "k" 0).1 = Except.ok none ∧
    (({ initCacheManager none none with
        disk_files := [("k", ⟨0, DiskContent.corruptCaught⟩)] } : CacheManager).get
        "k" 0).2.disk_files = [] := by
  have h := c6_caught_corruption_is_miss_and_unlinked
    ({ initCacheManager none none with
        disk_files := [("k", ⟨0, DiskContent.corruptCaught⟩)] }) "k" 0
    ⟨0, DiskContent.corruptCaught⟩ rfl rfl (by decide) rfl
  rw [h]
  exact ⟨rfl, rfl⟩

/-- C1 counterexample: after writing "laps_2024_r1", "laps_2024_r2",
"session_2024" (all `disk=True`), `invalidate_pattern("laps_2024")` does
NOT return 2: the source counts the two matching memory entries AND the
two matching disk files separately, returning 4. -/
theorem c1_counterexample :
    (((((initCacheManager none none).set "laps_2024_r1" ⟨[1]⟩ true false 0).set
        "laps_2024_r2" ⟨[2]⟩ true false 0).set "session_2024" ⟨[3]⟩ true false
        0).invalidate_pattern "laps_2024").1 ≠ 2 := by
  decide

set_option maxRecDepth 4000 in
/-- C1 amended: in the claim's scenario `invalidate_pattern("laps_2024")`
returns 4 — each matching key is counted once per tier it exists in (2
memory entries + 2 disk files) — and `get("session_2024")` afterwards
still returns its cached value. -/
theorem c1_pattern_invalidation_counts_each_tier (va vb vc : Df) :
    (((((initCacheManager none none).set "laps_2024_r1" va true false 0).set
        "laps_2024_r2" vb true false 0).set "session_2024" vc true false
        0).invalidate_pattern "laps_2024").1 = 4 ∧
    ((((((initCacheManager none none).set "laps_2024_r1" va true false 0).set
        "laps_2024_r2" vb true false 0).set "session_2024" vc true false
        0).invalidate_pattern "laps_2024").2.get "session_2024" 0).1
      = Except.ok (some vc) := by
  constructor <;> rfl

/-! ## LRU fill/eviction machinery for C3 -/

/-- The memory mapping holding each key of `ks` with value `vf k`, in
insertion order. -/
def assocOf (vf : String → Df) (ks : List String) : List (String × Df) :=
  ks.map (fun k => (k, vf k))

/-- Disk tier contents after `set` has processed each key of `ks` (in
order) at time `now` on top of `fs`: one fresh file per key when the
`disk` flag `d` is set, unchanged otherwise. -/
def diskWrites (d : Bool) (vf : String → Df) (now : Int) (ks : List String)
    (fs : List (String × DiskFile)) : List (String × DiskFile) :=
  ks.foldl (fun a k => if d then dictInsert a k ⟨now, DiskContent.stored (vf k)⟩ else a) fs

/-- Folding `CacheManager.set` (value `vf k`, shared `disk` flag, no write
failures, fixed time) over a list of keys. -/
def runSets (d : Bool) (vf : String → Df) (now : Int) (ks : List String)
    (st : CacheManager) : CacheManager :=
  ks.foldl (fun s k => s.set k (vf k) d false now) st

theorem assocOf_append (vf : String → Df) (l1 l2 : List String) :
    assocOf vf (l1 ++ l2) = assocOf vf l1 ++ assocOf vf l2 := by
  simp [assocOf]

theorem keysOf_assocOf (vf : String → Df) (ks : List String) :
    keysOf (assocOf vf ks) = ks := by
  simp [keysOf, assocOf, List.map_map]
  exact List.map_id ks

theorem diskWrites_false (vf : String → Df) (now : Int) (ks : List String)
    (fs : List (String × DiskFile)) : diskWrites false vf now ks fs = fs := by
  induction ks generalizing fs with
  | nil => rfl
  | cons a tl ih => exact ih _

theorem diskWrites_cons_true (vf : String → Df) (now : Int) (k : String) (ks : List String)
    (fs : List (String × DiskFile)) :
    diskWrites true vf now (k :: ks) fs
      = diskWrites true vf now ks (dictInsert fs k ⟨now, DiskContent.stored (vf k)⟩) := rfl

theorem lookupKey_diskWrites_not_mem (vf : String → Df) (now : Int) (k : String)
    (ks : List String) (fs : List (String × DiskFile)) (h : k ∉ ks) :
    lookupKey (diskWrites true vf now ks fs) k = lookupKey fs k := by
  induction ks generalizing fs with
  | nil => rfl
  | cons a tl ih =>
      have hka : k ≠ a := fun hh => h (hh ▸ List.mem_cons_self a tl)
      rw [diskWrites_cons_true, ih _ (fun hm => h (List.mem_cons_of_mem a hm)),
        lookupKey_dictInsert_ne _ _ _ _ hka]

theorem lookupKey_diskWrites_mem (vf : String → Df) (now : Int) (k : String)
    (ks : List String) (fs : List (String × DiskFile)) (hnd : ks.Nodup) (h : k ∈ ks) :
    lookupKey (diskWrites true vf now ks fs) k = some ⟨now, DiskContent.stored (vf k)⟩ := by
  induction ks generalizing fs with
  | nil => cases h
  | cons a tl ih =>
      rw [diskWrites_cons_true]
      rcases List.mem_cons.mp h with h1 | h2
      · subst h1
        rw [lookupKey_diskWrites_not_mem _ _ _ _ _ (List.nodup_cons.mp hnd).1,
          lookupKey_dictInsert_self]
      · exact ih _ (List.nodup_cons.mp hnd).2 h2

theorem runSets_cons (d : Bool) (vf : String → Df) (now : Int) (k : String)
    (ks : List String) (st : CacheManager) :
    runSets d vf now (k :: ks) st = runSets d vf now ks (st.set k (vf k) d false now) := rfl

theorem runSets_append (d : Bool) (vf : String → Df) (now : Int)
    (l1 l2 : List String) (st : CacheManager) :
    runSets d vf now (l1 ++ l2) st = runSets d vf now l2 (runSets d vf now l1 st) := by
  simp [runSets, List.foldl_append]

/-- Filling phase: as long as the keys inserted so far plus the keys still
to insert fit within the capacity, `set` never evicts, so the memory tier
accumulates the keys in insertion order and the disk tier (when `disk` is
set) accumulates one fresh file per key. -/
theorem runSets_no_evict (d : Bool) (vf : String → Df) (now : Int) (N ttl : Int) :
    ∀ (ks cur : List String) (fs : List (String × DiskFile)),
      ((cur.length + ks.length : Nat) : Int) ≤ N →
      (cur ++ ks).Nodup →
      runSets d vf now ks ⟨N, ttl, assocOf vf cur, cur, fs⟩ =
        ⟨N, ttl, assocOf vf (cur ++ ks), cur ++ ks, diskWrites d vf now ks fs⟩ := by
  intro ks
  induction ks with
  | nil =>
      intro cur fs _ _
      simp [runSets, diskWrites]
  | cons k tl ih =>
      intro cur fs hlen hnd
      have hkcur : k ∉ cur := fun hk =>
        (List.nodup_append.mp hnd).2.2 hk (List.mem_cons_self k tl)
      have hlcur : ((cur.length : Int)) < N := by
        simp only [List.length_cons] at hlen
        push_cast at hlen ⊢
        omega
      have hlt : (((assocOf vf cur).length : Int)) < N := by
        simpa [assocOf] using hlcur
      have hkOf : k ∉ keysOf (assocOf vf cur) := by
        rw [keysOf_assocOf]; exact hkcur
      have hev := evictLoop_of_lt N (assocOf vf cur) cur hlt
      have hmemIns : dictInsert (assocOf vf cur) k (vf k) = assocOf vf (cur ++ [k]) := by
        rw [dictInsert_of_not_mem _ _ _ hkOf, assocOf_append]
        rfl
      have horder : cur.erase k ++ [k] = cur ++ [k] := by
        rw [List.erase_of_not_mem hkcur]
      have hlen2 : (((cur ++ [k]).length + tl.length : Nat) : Int) ≤ N := by
        simp only [List.length_append, List.length_singleton, List.length_cons,
          List.length_nil] at hlen ⊢
        push_cast at hlen ⊢
        omega
      have hnd2 : ((cur ++ [k]) ++ tl).Nodup := by
        rw [List.append_assoc, List.singleton_append]
        exact hnd
      have hstep : (⟨N, ttl, assocOf vf cur, cur, fs⟩ : CacheManager).set k (vf k) d false now
          = ⟨N, ttl, assocOf vf (cur ++ [k]), cur ++ [k],
             if d then dictInsert fs k ⟨now, DiskContent.stored (vf k)⟩ else fs⟩ := by
        cases d <;>
          simp [CacheManager.set, CacheManager.set_memory, hev, hmemIns, horder]
      have hdw : diskWrites d vf now (k :: tl) fs
          = diskWrites d vf now tl
              (if d then dictInsert fs k ⟨now, DiskContent.stored (vf k)⟩ else fs) := by
        cases d <;> rfl
      rw [runSets_cons, hstep,
        ih (cur ++ [k]) (if d then dictInsert fs k ⟨now, DiskContent.stored (vf k)⟩ else fs)
          hlen2 hnd2, hdw]
      simp [List.append_assoc]

/-- C3: with `memory_size = N ≥ 1`, inserting the `N+1` distinct keys
`k1 :: mid ++ [klast]` (so `mid` holds the middle `N-1` keys) in order via
`set` evicts exactly `k1` from the memory tier — the tier afterwards holds
`mid ++ [klast]`, in order — and a subsequent `get(k1)` falls through to
the disk tier when the keys were written with `disk=True` (returning
`k1`'s value), and returns Absent when they were memory-only. -/
theorem c3_lru_evicts_exactly_first (N : Nat) (hN : 1 ≤ N) (k1 klast : String)
    (mid : List String) (hlen : mid.length = N - 1)
    (hnd : (k1 :: (mid ++ [klast])).Nodup)
    (vf : String → Df) (d : Bool) (now : Int) :
    keysOf (runSets d vf now (k1 :: (mid ++ [klast]))
        (initCacheManager (some (N : Int)) none)).memory_cache = mid ++ [klast] ∧
    (runSets d vf now (k1 :: (mid ++ [klast]))
        (initCacheManager (some (N : Int)) none)).memory_access_order = mid ++ [klast] ∧
    ((runSets d vf now (k1 :: (mid ++ [klast]))
        (initCacheManager (some (N : Int)) none)).get k1 now).1
      = Except.ok (if d then some (vf k1) else none) := by
  obtain ⟨hk1, hrest⟩ := List.nodup_cons.mp hnd
  obtain ⟨hmidnd, -, hdisj⟩ := List.nodup_append.mp hrest
  have hk1mid : k1 ∉ mid := fun h => hk1 (List.mem_append_left _ h)
  have hklmid : klast ∉ mid := fun h => hdisj h (List.mem_singleton.mpr rfl)
  have hk1kl : k1 ≠ klast := fun h => hk1 (List.mem_append_right _ (by simp [h]))
  have hnd2 : (k1 :: mid).Nodup := List.nodup_cons.mpr ⟨hk1mid, hmidnd⟩
  have hlen1 : mid.length + 1 = N := by omega
  have hN0 : (N : Int) ≠ 0 := by
    have hN' : N ≠ 0 := by omega
    exact_mod_cast hN'
  have hinit : initCacheManager (some (N : Int)) none
      = ⟨(N : Int), 86400, assocOf vf [], [], []⟩ := by
    simp [initCacheManager, pyOrInt, cacheSettingsDiskTTLHours, assocOf, hN0]
  have hsplit : k1 :: (mid ++ [klast]) = (k1 :: mid) ++ [klast] := by simp
  have hphase1 := runSets_no_evict d vf now (N : Int) 86400 (k1 :: mid) [] []
      (by simp only [List.length_nil, List.length_cons]; push_cast; omega)
      (by simpa using hnd2)
  simp only [List.nil_append] at hphase1
  have hAssocCons : assocOf vf (k1 :: mid) = (k1, vf k1) :: assocOf vf mid := rfl
  have hnotlt : ¬ ((((k1, vf k1) :: assocOf vf mid).length : Int) < (N : Int)) := by
    simp only [List.length_cons, assocOf, List.length_map]
    push_cast
    omega
  have hltmid : (((assocOf vf mid).length : Int)) < (N : Int) := by
    simp only [assocOf, List.length_map]
    omega
  have hevict : evictLoop (N : Int) (assocOf vf (k1 :: mid)) (k1 :: mid)
      = (assocOf vf mid, mid) := by
    rw [hAssocCons]
    simp only [evictLoop, if_neg hnotlt]
    rw [show eraseKey ((k1, vf k1) :: assocOf vf mid) k1 = assocOf vf mid by
      simp [eraseKey]]
    exact evictLoop_of_lt _ _ _ hltmid
  have hklOf : klast ∉ keysOf (assocOf vf mid) := by
    rw [keysOf_assocOf]; exact hklmid
  have hmemIns : dictInsert (assocOf vf mid) klast (vf klast)
      = assocOf vf (mid ++ [klast]) := by
    rw [dictInsert_of_not_mem _ _ _ hklOf, assocOf_append]
    rfl
  have horder : mid.erase klast ++ [klast] = mid ++ [klast] := by
    rw [List.erase_of_not_mem hklmid]
  have hset : (⟨(N : Int), 86400, assocOf vf (k1 :: mid), k1 :: mid,
        diskWrites d vf now (k1 :: mid) []⟩ : CacheManager).set
        klast (vf klast) d false now
      = ⟨(N : Int), 86400, assocOf vf (mid ++ [klast]), mid ++ [klast],
         if d then dictInsert (diskWrites d vf now (k1 :: mid) []) klast
             ⟨now, DiskContent.stored (vf klast)⟩
           else diskWrites d vf now (k1 :: mid) []⟩ := by
    cases d <;>
      simp [CacheManager.set, CacheManager.set_memory, hevict, hmemIns, horder]
  have hfinal : runSets d vf now (k1 :: (mid ++ [klast]))
      (initCacheManager (some (N : Int)) none)
      = ⟨(N : Int), 86400, assocOf vf (mid ++ [klast]), mid ++ [klast],
         if d then dictInsert (diskWrites d vf now (k1 :: mid) []) klast
             ⟨now, DiskContent.stored (vf klast)⟩
           else diskWrites d vf now (k1 :: mid) []⟩ := by
    rw [hsplit, runSets_append, hinit, hphase1]
    rw [show runSets d vf now [klast]
        (⟨(N : Int), 86400, assocOf vf (k1 :: mid), k1 :: mid,
          diskWrites d vf now (k1 :: mid) []⟩ : CacheManager)
      = (⟨(N : Int), 86400, assocOf vf (k1 :: mid), k1 :: mid,
          diskWrites d vf now (k1 :: mid) []⟩ : CacheManager).set
          klast (vf klast) d false now from rfl]
    exact hset
  have hlk1 : lookupKey (assocOf vf (mid ++ [klast])) k1 = none :=
    (lookupKey_eq_none_iff _ _).mpr (by rw [keysOf_assocOf]; exact hk1)
  refine ⟨?_, ?_, ?_⟩
  · rw [hfinal]
    exact keysOf_assocOf vf (mid ++ [klast])
  · rw [hfinal]
  · rw [hfinal]
    cases d
    · simp [CacheManager.get, hlk1, diskWrites_false, lookupKey]
    · have hdk : lookupKey (dictInsert (diskWrites true vf now (k1 :: mid) []) klast
          ⟨now, DiskContent.stored (vf klast)⟩) k1
          = some ⟨now, DiskContent.stored (vf k1)⟩ := by
        rw [lookupKey_dictInsert_ne _ _ _ _ hk1kl,
          lookupKey_diskWrites_mem _ _ _ _ _ hnd2 (List.mem_cons_self _ _)]
      simp [CacheManager.get, hlk1, hdk, sub_self]

/-- Witness for C3 at `N = 1`, keys `"a"`, `"b"`, written to disk. -/
theorem c3_lru_evicts_witness :
    keysOf (runSets true (fun _ => ⟨[7]⟩) 0 ("a" :: ([] ++ ["b"]))
        (initCacheManager (some ((1 : Nat) : Int)) none)).memory_cache = [] ++ ["b"] ∧
    ((runSets true (fun _ => ⟨[7]⟩) 0 ("a" :: ([] ++ ["b"]))
        (initCacheManager (some ((1 : Nat) : Int)) none)).get "a" 0).1
      = Except.ok (if true then some ⟨[7]⟩ else none) := by
  have h := c3_lru_evicts_exactly_first 1 (by decide) "a" "b" [] (by decide)
    (by decide) (fun _ => ⟨[7]⟩) true 0
  exact ⟨h.1, h.2.2⟩

/-! ## Decorator cache-through (C8) -/

theorem get_of_memory_hit (st : CacheManager) (k : String) (now : Int) (v : Df)
    (h : lookupKey st.memory_cache k = some v) :
    st.get k now = (Except.ok (some v),
      { st with memory_access_order := st.memory_access_order.erase k ++ [k] }) := by
  unfold CacheManager.get
  rw [h]

theorem get_of_full_miss (st : CacheManager) (k : String) (now : Int)
    (hm : lookupKey st.memory_cache k = none)
    (hd : lookupKey st.disk_files k = none) :
    st.get k now = (Except.ok none, st) := by
  unfold CacheManager.get
  rw [hm, hd]

/-- C8: cache-through behaviour of the `cached_dataframe` wrapper starting
from an empty cache (the global manager's defaults).  (1) Two calls with
identical arguments invoke the wrapped function exactly once: the first
call invokes it and stores its non-empty result, the second is served from
the cache and returns the same value.  (2) Calls with two distinct
argument values (whose derived keys differ — md5 collision-freeness) each
invoke the function.  (3) An empty result is not stored — the cache state
is unchanged — so the next identical call invokes the function again. -/
theorem c8_decorator_cache_through (genKey : Nat → String) (f : Nat → Df) (d : Bool)
    (now now2 : Int) (a a1 a2 aE : Nat)
    (hne : (f a).isEmpty = false)
    (hk12 : genKey a1 ≠ genKey a2) (hne1 : (f a1).isEmpty = false)
    (hE : (f aE).isEmpty = true) :
    (cachedDataframeCall genKey f d a now (initCacheManager none none)
        = Except.ok (f a, (initCacheManager none none).set (genKey a) (f a) d false now,
            true) ∧
      Except.map (fun t => (t.1, t.2.2))
        (cachedDataframeCall genKey f d a now2
          ((initCacheManager none none).set (genKey a) (f a) d false now))
        = Except.ok (f a, false)) ∧
    (cachedDataframeCall genKey f d a1 now (initCacheManager none none)
        = Except.ok (f a1, (initCacheManager none none).set (genKey a1) (f a1) d false now,
            true) ∧
      Except.map (fun t => (t.1, t.2.2))
        (cachedDataframeCall genKey f d a2 now2
          ((initCacheManager none none).set (genKey a1) (f a1) d false now))
        = Except.ok (f a2, true)) ∧
    (cachedDataframeCall genKey f d aE now (initCacheManager none none)
        = Except.ok (f aE, initCacheManager none none, true) ∧
      cachedDataframeCall genKey f d aE now2 (initCacheManager none none)
        = Except.ok (f aE, initCacheManager none none, true)) := by
  have hcall1 : ∀ (b : Nat) (t : Int), (f b).isEmpty = false →
      cachedDataframeCall genKey f d b t (initCacheManager none none)
        = Except.ok (f b, (initCacheManager none none).set (genKey b) (f b) d false t,
            true) := by
    intro b t hb
    simp only [cachedDataframeCall]
    rw [get_of_full_miss (initCacheManager none none) (genKey b) t rfl rfl]
    simp [hb]
  have hmc : ∀ (b : Nat) (t : Int),
      ((initCacheManager none none).set (genKey b) (f b) d false t).memory_cache
        = [(genKey b, f b)] := by
    intro b t
    cases d <;>
      simp [CacheManager.set, CacheManager.set_memory, initCacheManager,
        evictLoop, dictInsert]
  have hdf : ∀ (b : Nat) (t : Int),
      ((initCacheManager none none).set (genKey b) (f b) d false t).disk_files
        = if d then [(genKey b, ⟨t, DiskContent.stored (f b)⟩)] else [] := by
    intro b t
    cases d <;>
      simp [CacheManager.set, CacheManager.set_memory, initCacheManager, dictInsert]
  refine ⟨⟨hcall1 a now hne, ?_⟩, ⟨hcall1 a1 now hne1, ?_⟩, ?_, ?_⟩
  · simp only [cachedDataframeCall]
    rw [get_of_memory_hit _ (genKey a) now2 (f a) (by rw [hmc a now]; simp [lookupKey])]
    simp [Except.map]
  · simp only [cachedDataframeCall]
    rw [get_of_full_miss _ (genKey a2) now2
      (by rw [hmc a1 now]; simp [lookupKey, hk12])
      (by rw [hdf a1 now]; cases d <;> simp [lookupKey, hk12])]
    by_cases h2 : (f a2).isEmpty <;> simp [h2, Except.map]
  · simp only [cachedDataframeCall]
    rw [get_of_full_miss (initCacheManager none none) (genKey aE) now rfl rfl]
    simp [hE]
  · simp only [cachedDataframeCall]
    rw [get_of_full_miss (initCacheManager none none) (genKey aE) now2 rfl rfl]
    simp [hE]

/-- Witness for C8's identical-argument scenario, with `toString` as the
key deriver and a one-row result. -/
theorem c8_decorator_witness :
    cachedDataframeCall (fun n => toString n) (fun n => ⟨List.replicate n 0⟩) true 1 0
        (initCacheManager none none)
      = Except.ok (⟨List.replicate 1 0⟩,
          (initCacheManager none none).set (toString 1) ⟨List.replicate 1 0⟩ true false 0,
          true) ∧
    Except.map (fun t => (t.1, t.2.2))
      (cachedDataframeCall (fun n => toString n) (fun n => ⟨List.replicate n 0⟩) true 1 0
        ((initCacheManager none none).set (toString 1) ⟨List.replicate 1 0⟩ true false 0))
      = Except.ok (⟨List.replicate 1 0⟩, false) := by
  exact (c8_decorator_cache_through (fun n => toString n)
    (fun n => ⟨List.replicate n 0⟩) true 0 0 1 1 2 0
    (by decide) (by decide) (by decide) (by decide)).1

/-! ## Memory tier invariant (C4) -/

/-- One observable operation on a `CacheManager`; `get` and `set` carry the
wall-clock time at which they run, and `set` also carries whether its disk
write fails. -/
inductive CacheOp where
  | getOp (key : String) (now : Int)
  | setOp (key : String) (data : Df) (disk : Bool) (disk_write_fails : Bool) (now : Int)
  | invalidateOp (key : String)
  | invalidatePatternOp (pat : String)
  | clearOp

/-- Running one operation, discarding its return value. -/
def applyOp (st : CacheManager) : CacheOp → CacheManager
  | CacheOp.getOp k now => (st.get k now).2
  | CacheOp.setOp k v d wf now => st.set k v d wf now
  | CacheOp.invalidateOp k => st.invalidate k
  | CacheOp.invalidatePatternOp p => (st.invalidate_pattern p).2
  | CacheOp.clearOp => st.clear

/-- The memory-tier invariant of the spec: the mapping's keys are
duplicate-free (it is a Python dict), the access-order sequence is
duplicate-free, the two hold exactly the same key set, and the number of
memory entries never exceeds `memory_size`. -/
def MemTierInv (st : CacheManager) : Prop :=
  (keysOf st.memory_cache).Nodup ∧
  st.memory_access_order.Nodup ∧
  (∀ k, k ∈ keysOf st.memory_cache ↔ k ∈ st.memory_access_order) ∧
  (st.memory_cache.length : Int) ≤ st.memory_size

theorem evictLoop_inv (m : Int) (o : List String) :
    ∀ c : List (String × Df),
      (keysOf c).Nodup → o.Nodup → (∀ k, k ∈ keysOf c ↔ k ∈ o) →
      (keysOf (evictLoop m c o).1).Nodup ∧ (evictLoop m c o).2.Nodup ∧
        (∀ k, k ∈ keysOf (evictLoop m c o).1 ↔ k ∈ (evictLoop m c o).2) ∧
        (((evictLoop m c o).1.length : Int) < m ∨ (evictLoop m c o).1 = []) := by
  induction o with
  | nil =>
      intro c h1 h2 h3
      have hkeys : keysOf c = [] := by
        refine List.eq_nil_iff_forall_not_mem.mpr (fun k hk => ?_)
        simpa using (h3 k).mp hk
      have hc : c = [] := by
        have := congrArg List.length hkeys
        simp only [keysOf, List.length_map, List.length_nil] at this
        exact List.eq_nil_of_length_eq_zero this
      subst hc
      exact ⟨h1, h2, h3, Or.inr rfl⟩
  | cons k rest ih =>
      intro c h1 h2 h3
      by_cases hlt : ((c.length : Int)) < m
      · have hred : evictLoop m c (k :: rest) = (c, k :: rest) := by
          simp only [evictLoop, if_pos hlt]
        rw [hred]
        exact ⟨h1, h2, h3, Or.inl hlt⟩
      · have hred : evictLoop m c (k :: rest) = evictLoop m (eraseKey c k) rest := by
          simp only [evictLoop, if_neg hlt]
        rw [hred]
        have h1' : (keysOf (eraseKey c k)).Nodup := by
          rw [keysOf_eraseKey]; exact h1.erase k
        have h2' : rest.Nodup := (List.nodup_cons.mp h2).2
        have hknr : k ∉ rest := (List.nodup_cons.mp h2).1
        have h3' : ∀ k', k' ∈ keysOf (eraseKey c k) ↔ k' ∈ rest := by
          intro k'
          rw [keysOf_eraseKey, h1.mem_erase_iff]
          constructor
          · rintro ⟨hne, hmem⟩
            rcases List.mem_cons.mp ((h3 k').mp hmem) with h | h
            · exact absurd h hne
            · exact h
          · intro hr
            have hne : k' ≠ k := fun he => hknr (he ▸ hr)
            exact ⟨hne, (h3 k').mpr (List.mem_cons_of_mem _ hr)⟩
        exact ih (eraseKey c k) h1' h2' h3'

theorem set_memory_inv (st : CacheManager) (k : String) (v : Df)
    (hm : 1 ≤ st.memory_size) (h : MemTierInv st) : MemTierInv (st.set_memory k v) := by
  obtain ⟨h1, h2, h3, -⟩ := h
  obtain ⟨g1, g2, g3, g5⟩ :=
    evictLoop_inv st.memory_size st.memory_access_order st.memory_cache h1 h2 h3
  simp only [CacheManager.set_memory, MemTierInv]
  refine ⟨?_, ?_, ?_, ?_⟩
  · rw [keysOf_dictInsert]
    by_cases hk : k ∈ keysOf (evictLoop st.memory_size st.memory_cache st.memory_access_order).1
    · rw [if_pos hk]; exact g1
    · rw [if_neg hk]; exact nodup_append_singleton g1 hk
  · have hnk : k ∉ (evictLoop st.memory_size st.memory_cache st.memory_access_order).2.erase k :=
      fun hc => ((g2.mem_erase_iff).mp hc).1 rfl
    exact nodup_append_singleton (g2.erase k) hnk
  · intro x
    by_cases hx : x = k
    · subst hx
      constructor
      · intro _
        exact List.mem_append_right _ (List.mem_singleton.mpr rfl)
      · intro _
        rw [keysOf_dictInsert]
        by_cases hk : x ∈ keysOf (evictLoop st.memory_size st.memory_cache st.memory_access_order).1
        · rw [if_pos hk]; exact hk
        · rw [if_neg hk]
          exact List.mem_append_right _ (List.mem_singleton.mpr rfl)
    · rw [keysOf_dictInsert]
      have hro : x ∈ (evictLoop st.memory_size st.memory_cache st.memory_access_order).2.erase k
            ++ [k]
          ↔ x ∈ (evictLoop st.memory_size st.memory_cache st.memory_access_order).2 := by
        simp [List.mem_append, hx, g2.mem_erase_iff]
      rw [hro]
      by_cases hk : k ∈ keysOf (evictLoop st.memory_size st.memory_cache st.memory_access_order).1
      · rw [if_pos hk]
        exact g3 x
      · rw [if_neg hk]
        have hlx : x ∈ keysOf (evictLoop st.memory_size st.memory_cache st.memory_access_order).1
              ++ [k]
            ↔ x ∈ keysOf (evictLoop st.memory_size st.memory_cache st.memory_access_order).1 := by
          simp [List.mem_append, hx]
        rw [hlx]
        exact g3 x
  · rw [length_dictInsert]
    rcases g5 with hlt | hnil
    · by_cases hk : k ∈ keysOf (evictLoop st.memory_size st.memory_cache st.memory_access_order).1
      · rw [if_pos hk]
        exact le_of_lt hlt
      · rw [if_neg hk]
        push_cast
        omega
    · rw [hnil]
      simp [keysOf]
      omega

theorem get_inv (st : CacheManager) (k : String) (now : Int)
    (hm : 1 ≤ st.memory_size) (h : MemTierInv st) : MemTierInv ((st.get k now).2) := by
  obtain ⟨h1, h2, h3, h4⟩ := h
  unfold CacheManager.get
  cases hmem : lookupKey st.memory_cache k with
  | some v =>
      dsimp only
      have hkk : k ∈ keysOf st.memory_cache := by
        rw [← lookupKey_isSome_iff, hmem]
        rfl
      refine ⟨h1, ?_, ?_, h4⟩
      · have hnk : k ∉ st.memory_access_order.erase k :=
          fun hc => ((h2.mem_erase_iff).mp hc).1 rfl
        exact nodup_append_singleton (h2.erase k) hnk
      · intro x
        by_cases hx : x = k
        · subst hx
          constructor
          · intro _
            exact List.mem_append_right _ (List.mem_singleton.mpr rfl)
          · intro _
            exact hkk
        · have hro : x ∈ st.memory_access_order.erase k ++ [k]
              ↔ x ∈ st.memory_access_order := by
            simp [List.mem_append, hx, h2.mem_erase_iff]
          rw [hro]
          exact h3 x
  | none =>
      cases hdisk : lookupKey st.disk_files k with
      | none => exact ⟨h1, h2, h3, h4⟩
      | some f =>
          obtain ⟨mt, ct⟩ := f
          dsimp only
          by_cases hfr : now - mt < st.disk_ttl
          · rw [if_pos hfr]
            cases ct with
            | stored v => exact set_memory_inv st k v hm ⟨h1, h2, h3, h4⟩
            | corruptCaught => exact ⟨h1, h2, h3, h4⟩
            | corruptUncaught => exact ⟨h1, h2, h3, h4⟩
          · rw [if_neg hfr]
            exact ⟨h1, h2, h3, h4⟩

theorem set_inv (st : CacheManager) (k : String) (v : Df) (d wf : Bool) (now : Int)
    (hm : 1 ≤ st.memory_size) (h : MemTierInv st) : MemTierInv (st.set k v d wf now) := by
  have hsm := set_memory_inv st k v hm h
  cases d <;> cases wf <;> exact hsm

theorem erase_pair_inv (c : List (String × Df)) (o : List String) (k : String)
    (h1 : (keysOf c).Nodup) (h2 : o.Nodup) (h3 : ∀ x, x ∈ keysOf c ↔ x ∈ o) :
    (keysOf (eraseKey c k)).Nodup ∧ (o.erase k).Nodup ∧
    (∀ x, x ∈ keysOf (eraseKey c k) ↔ x ∈ o.erase k) ∧
    (eraseKey c k).length ≤ c.length := by
  refine ⟨by rw [keysOf_eraseKey]; exact h1.erase k, h2.erase k, ?_, eraseKey_length_le c k⟩
  intro x
  rw [keysOf_eraseKey, h1.mem_erase_iff, h2.mem_erase_iff]
  constructor
  · rintro ⟨hne, hmem⟩
    exact ⟨hne, (h3 x).mp hmem⟩
  · rintro ⟨hne, hmem⟩
    exact ⟨hne, (h3 x).mpr hmem⟩

theorem fold_erase_inv (L : List String) :
    ∀ (c : List (String × Df)) (o : List String),
      (keysOf c).Nodup → o.Nodup → (∀ x, x ∈ keysOf c ↔ x ∈ o) →
      (keysOf (L.foldl (fun cc kk => eraseKey cc kk) c)).Nodup ∧
      (L.foldl (fun oo kk => oo.erase kk) o).Nodup ∧
      (∀ x, x ∈ keysOf (L.foldl (fun cc kk => eraseKey cc kk) c) ↔
        x ∈ L.foldl (fun oo kk => oo.erase kk) o) ∧
      (L.foldl (fun cc kk => eraseKey cc kk) c).length ≤ c.length := by
  induction L with
  | nil =>
      intro c o h1 h2 h3
      exact ⟨h1, h2, h3, le_refl _⟩
  | cons k tl ih =>
      intro c o h1 h2 h3
      simp only [List.foldl_cons]
      obtain ⟨e1, e2, e3, e4⟩ := erase_pair_inv c o k h1 h2 h3
      obtain ⟨f1, f2, f3, f4⟩ := ih (eraseKey c k) (o.erase k) e1 e2 e3
      exact ⟨f1, f2, f3, le_trans f4 e4⟩

theorem invalidate_inv (st : CacheManager) (k : String)
    (h : MemTierInv st) : MemTierInv (st.invalidate k) := by
  obtain ⟨h1, h2, h3, h4⟩ := h
  obtain ⟨e1, e2, e3, e4⟩ := erase_pair_inv st.memory_cache st.memory_access_order k h1 h2 h3
  exact ⟨e1, e2, e3, le_trans (by exact_mod_cast e4) h4⟩

theorem invalidate_pattern_inv (st : CacheManager) (p : String)
    (h : MemTierInv st) : MemTierInv ((st.invalidate_pattern p).2) := by
  obtain ⟨h1, h2, h3, h4⟩ := h
  simp only [CacheManager.invalidate_pattern]
  obtain ⟨f1, f2, f3, f4⟩ := fold_erase_inv
    (keysOf (st.memory_cache.filter (fun kv => strContains kv.1 p)))
    st.memory_cache st.memory_access_order h1 h2 h3
  exact ⟨f1, f2, f3, le_trans (by exact_mod_cast f4) h4⟩

theorem clear_inv (st : CacheManager) (hm : 1 ≤ st.memory_size) :
    MemTierInv (st.clear) := by
  refine ⟨List.nodup_nil, List.nodup_nil, fun k => by simp [CacheManager.clear, keysOf], ?_⟩
  simp only [CacheManager.clear, List.length_nil]
  omega

theorem applyOp_memory_size (st : CacheManager) (op : CacheOp) :
    (applyOp st op).memory_size = st.memory_size := by
  cases op with
  | getOp k now =>
      show ((st.get k now).2).memory_size = st.memory_size
      unfold CacheManager.get
      cases lookupKey st.memory_cache k with
      | some v => rfl
      | none =>
          cases lookupKey st.disk_files k with
          | none => rfl
          | some f =>
              obtain ⟨mt, ct⟩ := f
              dsimp only
              by_cases hfr : now - mt < st.disk_ttl
              · rw [if_pos hfr]
                cases ct with
                | stored v => rfl
                | corruptCaught => rfl
                | corruptUncaught => rfl
              · rw [if_neg hfr]
  | setOp k v d wf now => cases d <;> cases wf <;> rfl
  | invalidateOp k => rfl
  | invalidatePatternOp p => rfl
  | clearOp => rfl

theorem applyOp_inv (st : CacheManager) (op : CacheOp)
    (hm : 1 ≤ st.memory_size) (h : MemTierInv st) : MemTierInv (applyOp st op) := by
  cases op with
  | getOp k now => exact get_inv st k now hm h
  | setOp k v d wf now => exact set_inv st k v d wf now hm h
  | invalidateOp k => exact invalidate_inv st k h
  | invalidatePatternOp p => exact invalidate_pattern_inv st p h
  | clearOp => exact clear_inv st hm

/-- C4: starting from a freshly constructed manager (any configuration
giving a positive capacity — the default, and any explicit size the
process-wide validation admits), every sequence of cache operations
preserves the memory-tier invariant: the mapping's key set equals the
access-order's key set, the access order has no duplicates, and the entry
count never exceeds `memory_size`. -/
theorem c4_memory_tier_invariant (msArg ttlArg : Option Int) (ops : List CacheOp)
    (hm : 1 ≤ (initCacheManager msArg ttlArg).memory_size) :
    MemTierInv (ops.foldl applyOp (initCacheManager msArg ttlArg)) := by
  have hinit : MemTierInv (initCacheManager msArg ttlArg) := by
    refine ⟨List.nodup_nil, List.nodup_nil,
      fun k => by simp [initCacheManager, keysOf], ?_⟩
    simp only [initCacheManager] at hm ⊢
    simp only [List.length_nil]
    omega
  have main : ∀ (L : List CacheOp) (st : CacheManager),
      1 ≤ st.memory_size → MemTierInv st → MemTierInv (L.foldl applyOp st) := by
    intro L
    induction L with
    | nil =>
        intro st _ h
        exact h
    | cons op tl ih =>
        intro st hm1 h1
        simp only [List.foldl_cons]
        exact ih _ (by rw [applyOp_memory_size]; exact hm1) (applyOp_inv st op hm1 h1)
  exact main ops _ hm hinit

/-- Witness for C4 on a concrete operation sequence from the default
manager. -/
theorem c4_memory_tier_invariant_witness :
    1 ≤ (initCacheManager none none).memory_size ∧
    MemTierInv ([CacheOp.setOp "a" ⟨[1]⟩ true false 0, CacheOp.getOp "a" 5,
        CacheOp.invalidatePatternOp "a", CacheOp.clearOp].foldl applyOp
      (initCacheManager none none)) :=
  ⟨by decide, c4_memory_tier_invariant none none _ (by decide)⟩
